import Mathlib

/-!
# Verification of the politia ingestion pipeline

Shallow embedding of the entity-resolution / ingestion pipeline of the
`venturebottega_nikita` repository (package `politia`), together with proofs
of the specified properties.

The embedding follows the Python source:
* `politia/pipeline/webtv_processor.py`   — transcript processor (sessions / topics / speeches)
* `politia/pipeline/name_matcher.py`      — cascading speaker-name resolution
* `politia/pipeline/openparlamento_processor.py` — biographical person upsert
* `politia/pipeline/webtv_fetcher.py`     — incremental discovery of remote sessions

Machine-level conventions: Python `str` is modelled by Lean `String`
(sequences of Unicode code points, as in CPython), bytes by `Nat` values below
256, and 32-bit arithmetic by `Nat` with explicit `% 2^32`.  `hashlib.md5` is
embedded as a full MD5 implementation over byte lists (RFC 1321).
-/

namespace Politia

/-! ## MD5 (model of Python `hashlib.md5(...).hexdigest()`)

The processors derive identifiers via `hashlib.md5(s.encode('utf-8')).hexdigest()`
with a truncating slice.  We embed MD5 itself so that concrete identifier values
can be computed inside the logic. -/

/-- One 32-bit word, reduced. -/
def w32 (x : Nat) : Nat := x % 4294967296

/-- 32-bit left rotation (the two summands occupy disjoint bit ranges). -/
def rotl (x n : Nat) : Nat :=
  (w32 x * 2 ^ n) % 4294967296 + w32 x / 2 ^ (32 - n)

/-- Bitwise complement on 32 bits. -/
def not32 (x : Nat) : Nat := 4294967295 - w32 x

/-- MD5 round function F. -/
def mdF (b c d : Nat) : Nat := (b &&& c) ||| (not32 b &&& d)

/-- MD5 round function G. -/
def mdG (b c d : Nat) : Nat := (b &&& d) ||| (c &&& not32 d)

/-- MD5 round function H. -/
def mdH (b c d : Nat) : Nat := b ^^^ c ^^^ d

/-- MD5 round function I. -/
def mdI (b c d : Nat) : Nat := c ^^^ (b ||| not32 d)

/-- The 64 MD5 sine-derived constants (RFC 1321 table T). -/
def mdK : List Nat :=
  [0xd76aa478, 0xe8c7b756, 0x242070db, 0xc1bdceee,
   0xf57c0faf, 0x4787c62a, 0xa8304613, 0xfd469501,
   0x698098d8, 0x8b44f7af, 0xffff5bb1, 0x895cd7be,
   0x6b901122, 0xfd987193, 0xa679438e, 0x49b40821,
   0xf61e2562, 0xc040b340, 0x265e5a51, 0xe9b6c7aa,
   0xd62f105d, 0x02441453, 0xd8a1e681, 0xe7d3fbc8,
   0x21e1cde6, 0xc33707d6, 0xf4d50d87, 0x455a14ed,
   0xa9e3e905, 0xfcefa3f8, 0x676f02d9, 0x8d2a4c8a,
   0xfffa3942, 0x8771f681, 0x6d9d6122, 0xfde5380c,
   0xa4beea44, 0x4bdecfa9, 0xf6bb4b60, 0xbebfbc70,
   0x289b7ec6, 0xeaa127fa, 0xd4ef3085, 0x04881d05,
   0xd9d4d039, 0xe6db99e5, 0x1fa27cf8, 0xc4ac5665,
   0xf4292244, 0x432aff97, 0xab9423a7, 0xfc93a039,
   0x655b59c3, 0x8f0ccc92, 0xffeff47d, 0x85845dd1,
   0x6fa87e4f, 0xfe2ce6e0, 0xa3014314, 0x4e0811a1,
   0xf7537e82, 0xbd3af235, 0x2ad7d2bb, 0xeb86d391]

/-- The 64 MD5 per-round shift amounts. -/
def mdS : List Nat :=
  [7, 12, 17, 22, 7, 12, 17, 22, 7, 12, 17, 22, 7, 12, 17, 22,
   5,  9, 14, 20, 5,  9, 14, 20, 5,  9, 14, 20, 5,  9, 14, 20,
   4, 11, 16, 23, 4, 11, 16, 23, 4, 11, 16, 23, 4, 11, 16, 23,
   6, 10, 15, 21, 6, 10, 15, 21, 6, 10, 15, 21, 6, 10, 15, 21]

/-- Little-endian 32-bit word taken from byte position `4*g` of a block. -/
def mdWord (blk : List Nat) (g : Nat) : Nat :=
  blk.getD (4 * g) 0 + 256 * blk.getD (4 * g + 1) 0 +
  65536 * blk.getD (4 * g + 2) 0 + 16777216 * blk.getD (4 * g + 3) 0

/-- One of the 64 MD5 rounds on state `(a, b, c, d)`. -/
def mdRound (blk : List Nat) (st : Nat × Nat × Nat × Nat) (i : Nat) :
    Nat × Nat × Nat × Nat :=
  let (a, b, c, d) := st
  let f := if i < 16 then mdF b c d
           else if i < 32 then mdG b c d
           else if i < 48 then mdH b c d
           else mdI b c d
  let g := if i < 16 then i
           else if i < 32 then (5 * i + 1) % 16
           else if i < 48 then (3 * i + 5) % 16
           else (7 * i) % 16
  let sum := w32 (a + f + mdK.getD i 0 + mdWord blk g)
  (d, w32 (b + rotl sum (mdS.getD i 0)), b, c)

/-- Process one padded 64-byte block, updating the running MD5 state. -/
def mdBlock (st : Nat × Nat × Nat × Nat) (blk : List Nat) :
    Nat × Nat × Nat × Nat :=
  let (a0, b0, c0, d0) := st
  let (a, b, c, d) := (List.range 64).foldl (mdRound blk) st
  (w32 (a0 + a), w32 (b0 + b), w32 (c0 + c), w32 (d0 + d))

/-- MD5 padding: append `0x80`, zero bytes to 56 mod 64, then the bit length
as 8 little-endian bytes. -/
def md5pad (msg : List Nat) : List Nat :=
  let len := msg.length
  let zeros := (120 - (len + 1) % 64) % 64
  msg ++ [128] ++ List.replicate zeros 0 ++
    (List.range 8).map (fun i => (len * 8) >>> (8 * i) % 256)

/-- Split a (padded) byte list into 64-byte blocks (structural fuel recursion,
so that the kernel can evaluate it; the fuel is the list length, which always
suffices because each step consumes at least one element). -/
def chunks64Go : Nat → List Nat → List (List Nat)
  | _, [] => []
  | 0, _ => []
  | fuel + 1, l => l.take 64 :: chunks64Go fuel (l.drop 64)

/-- Split a (padded) byte list into 64-byte blocks. -/
def chunks64 (l : List Nat) : List (List Nat) :=
  chunks64Go l.length l

/-- Little-endian bytes of a 32-bit word. -/
def le4 (x : Nat) : List Nat :=
  [x % 256, x / 256 % 256, x / 65536 % 256, x / 16777216 % 256]

/-- The final MD5 state after all blocks. -/
def md5final (msg : List Nat) : Nat × Nat × Nat × Nat :=
  (chunks64 (md5pad msg)).foldl mdBlock
    (0x67452301, 0xefcdab89, 0x98badcfe, 0x10325476)

/-- The 16 digest bytes of MD5 applied to a byte list. -/
def md5digest (msg : List Nat) : List Nat :=
  le4 (md5final msg).1 ++ le4 (md5final msg).2.1 ++
  le4 (md5final msg).2.2.1 ++ le4 (md5final msg).2.2.2

/-- One lowercase hex digit. -/
def hexChar (n : Nat) : Char :=
  Char.ofNat (if n < 10 then 48 + n else 87 + n)

/-- Lowercase hex rendering of a byte list (two digits per byte). -/
def hexOfBytes : List Nat → List Char
  | [] => []
  | b :: rest => hexChar (b / 16 % 16) :: hexChar (b % 16) :: hexOfBytes rest

/-- UTF-8 encoding of one code point (model of Python `str.encode('utf-8')`). -/
def utf8Char (c : Char) : List Nat :=
  let n := c.toNat
  if n < 128 then [n]
  else if n < 2048 then [192 + n / 64, 128 + n % 64]
  else if n < 65536 then [224 + n / 4096, 128 + n / 64 % 64, 128 + n % 64]
  else [240 + n / 262144, 128 + n / 4096 % 64, 128 + n / 64 % 64, 128 + n % 64]

/-- UTF-8 encoding of a string as a byte list. -/
def utf8 (s : String) : List Nat :=
  s.data.foldr (fun c acc => utf8Char c ++ acc) []

/-- Model of Python `hashlib.md5(s.encode('utf-8')).hexdigest()` as a char list. -/
def md5hexChars (s : String) : List Char :=
  hexOfBytes (md5digest (utf8 s))

/-! ## Identifier derivation (webtv_processor.py, openparlamento_processor.py) -/

/-- Model of `WebTVProcessor._generate_topic_id`: the session id, the literal
piece `"_topic_"`, and the first 8 hex digits of the MD5 of the raw title. -/
def generate_topic_id (session_id title : String) : String :=
  session_id ++ "_topic_" ++ String.mk ((md5hexChars title).take 8)

/-- Model of `WebTVProcessor._generate_speech_id`: the topic id, the literal
piece `"_speech_"`, and the first 12 hex digits of the MD5 of
`f"{topic_id}_{index}_{text[:100]}"`. -/
def generate_speech_id (topic_id : String) (index : Nat) (text : String) : String :=
  topic_id ++ "_speech_" ++
    String.mk ((md5hexChars (topic_id ++ "_" ++ toString index ++ "_" ++ text.take 100)).take 12)

/-! ## Python string primitives used by `NameMatcher._normalize_name`

Python `str` operations are modelled on `List Char`.  Whitespace and
case-mapping are modelled on their ASCII fragment (the honorific tokens the
matcher manipulates are pure ASCII). -/

/-- Whitespace in the sense of Python `str.split` / `str.strip` / `re` class
`\s` (ASCII fragment). -/
def isPyWs (c : Char) : Bool :=
  c = ' ' || c = '\t' || c = '\n' || c = '\r' || c = '\x0b' || c = '\x0c'

/-- Word characters in the sense of the `re` class `\w` (ASCII fragment):
letters, digits and underscore. -/
def isWordChar (c : Char) : Bool :=
  c.isAlphanum || c = '_'

/-- Engine of Python `str.replace(pat, '')` (non-overlapping, left-to-right);
the fuel argument is the length of the scanned list, which always suffices
because each step consumes at least one character when `pat` is non-empty. -/
def replaceGo (pat : List Char) : Nat → List Char → List Char
  | _, [] => []
  | 0, s => s
  | fuel + 1, c :: rest =>
    if pat.isPrefixOf (c :: rest) then
      replaceGo pat fuel ((c :: rest).drop pat.length)
    else c :: replaceGo pat fuel rest

/-- Python `s.replace(pat, '')` for a non-empty pattern (all title tokens are
non-empty; an empty pattern is mapped to the identity). -/
def replaceAll (pat s : List Char) : List Char :=
  if pat = [] then s else replaceGo pat s.length s

/-- Substring occurrence test matching the scan order of `replaceGo`. -/
def hasSub (pat : List Char) : List Char → Bool
  | [] => pat.isEmpty
  | c :: rest => pat.isPrefixOf (c :: rest) || hasSub pat rest

/-- Engine of Python `str.split()` (split on whitespace runs, dropping empty
pieces); `cur` is the reversed current word. -/
def pyWordsAux : List Char → List Char → List (List Char)
  | cur, [] => if cur = [] then [] else [cur.reverse]
  | cur, c :: rest =>
    if isPyWs c then
      if cur = [] then pyWordsAux [] rest else cur.reverse :: pyWordsAux [] rest
    else pyWordsAux (c :: cur) rest

/-- Python `s.split()`: the maximal whitespace-free words of `s`. -/
def pyWords (s : List Char) : List (List Char) :=
  pyWordsAux [] s

/-- Python `' '.join(ws)`. -/
def joinWords : List (List Char) → List Char
  | [] => []
  | [w] => w
  | w :: rest => w ++ ' ' :: joinWords rest

/-- Python `s.strip()`: drop leading and trailing whitespace. -/
def pyStrip (l : List Char) : List Char :=
  ((l.dropWhile isPyWs).reverse.dropWhile isPyWs).reverse

/-- The closed honorific/role token set `NameMatcher.TITLES`, in source order
(the order matters: replacements are applied sequentially). -/
def TITLES : List (List Char) :=
  ["PRESIDENTE".data, "ON".data, "ONOREVOLE".data, "SENATORE".data,
   "DEPUTATO".data, "MINISTRO".data, "MINISTRA".data]

/-- Model of `NameMatcher._normalize_name` on char lists: uppercase, strip the
title tokens, drop characters that are neither word characters nor whitespace,
collapse whitespace runs to single spaces, trim. -/
def normalizeChars (s : List Char) : List Char :=
  if s = [] then []
  else
    let u1 := s.map Char.toUpper
    let u2 := TITLES.foldl (fun acc t => replaceAll t acc) u1
    let u3 := u2.filter (fun c => isWordChar c || isPyWs c)
    pyStrip (joinWords (pyWords u3))

/-- Model of `NameMatcher._normalize_name` on strings. -/
def normalize_name (s : String) : String :=
  String.mk (normalizeChars s.data)

/-! ## Data model (politia/models)

Rows of the four tables.  Python `None` on nullable columns is `Option.none`;
the name columns of `Person`, which every code path writes as strings, are
modelled as `String` with `""` for blank (Python treats both `None` and `""`
as falsy in the guards below). -/

/-- One entry of the JSON `roles` array built by the OpenParlamento processor. -/
structure RoleRec where
  role : Option String
  start_date : Option String
  end_date : Option String
  party : Option String
deriving DecidableEq, Repr

/-- The `latest_group` object of an OpenParlamento record. -/
structure OPGroup where
  acronym : Option String
  name : Option String
deriving DecidableEq, Repr

/-- The `current_roles.parl` object of an OpenParlamento record. -/
structure OPParl where
  role : Option String
  start_date : Option String
  end_date : Option String
  latest_group : Option OPGroup
deriving DecidableEq, Repr

/-- The `current_roles` object; `parl = none` models both an absent key and an
empty (falsy) object, which the code treats identically. -/
structure OPRoles where
  parl : Option OPParl
deriving DecidableEq, Repr

/-- One parsed OpenParlamento JSON record (the fields the processor reads);
`none` models an absent key, and for `current_roles` also a falsy value. -/
structure OPRecord where
  id : Option Nat
  family_name : Option String
  given_name : Option String
  slug : Option String
  birth_date : Option String
  birth_place : Option String
  image : Option String
  current_roles : Option OPRoles
deriving DecidableEq, Repr

/-- A row of the `persons` table. -/
structure PersonRow where
  person_id : String
  full_name : String
  family_name : String
  given_name : String
  party : Option String := none
  roles : List RoleRec := []
  source_ids : List (String × Option String) := []
  birth_date : Option String := none
  birth_place : Option String := none
  image_url : Option String := none
  slug : Option String := none
  raw_data : Option OPRecord := none
deriving DecidableEq, Repr

/-- A row of the `sessions` table (dates are abstract day numbers). -/
structure SessionRow where
  session_id : String
  date : Nat
  chamber : String
  legislature : Nat
  session_number : Nat
  source_reference : String
deriving DecidableEq, Repr

/-- A row of the `topics` table. -/
structure TopicRow where
  topic_id : String
  session_id : String
  title : String
deriving DecidableEq, Repr

/-- A row of the `speech_segments` table. -/
structure SpeechRow where
  speech_id : String
  session_id : String
  topic_id : String
  speaker_id : String
  text : String
  date : Nat
  source_reference : String
  order_in_topic : Nat
deriving DecidableEq, Repr

/-- The database visible to one transactional session: the four tables, each
an insertion-ordered list of rows. -/
structure DB where
  sessions : List SessionRow := []
  topics : List TopicRow := []
  speeches : List SpeechRow := []
  persons : List PersonRow := []
deriving DecidableEq, Repr

/-! ## NameMatcher (name_matcher.py)

The in-memory index `_person_cache` is a Python dict from normalized name
strings to `Person` rows: an insertion-ordered association list with unique
keys, where re-assigning an existing key replaces the value in place. -/

/-- The `_person_cache` dict. -/
abbrev Cache := List (String × PersonRow)

/-- Python dict assignment `d[k] = v`: replace in place if the key exists,
otherwise append. -/
def dictInsert (k : String) (v : PersonRow) : Cache → Cache
  | [] => [(k, v)]
  | (k', v') :: rest =>
    if k' = k then (k, v) :: rest else (k', v') :: dictInsert k v rest

/-- Python dict lookup (`k in d` / `d[k]`). -/
def dictFind (cache : Cache) (k : String) : Option PersonRow :=
  (cache.find? (fun kv => kv.1 = k)).map (fun kv => kv.2)

/-- Model of `NameMatcher._load_person_cache` starting from a given cache
state (the method appends to the existing dict without clearing it; on
construction the dict is empty). -/
def load_person_cache (persons : List PersonRow) (init : Cache) : Cache :=
  persons.foldl (fun cache p =>
    let cache :=
      if p.family_name ≠ "" ∧ p.given_name ≠ "" then
        dictInsert (normalize_name (p.given_name ++ " " ++ p.family_name)) p
          (dictInsert (normalize_name (p.family_name ++ " " ++ p.given_name)) p cache)
      else cache
    if p.full_name ≠ "" then dictInsert (normalize_name p.full_name) p cache
    else cache) init

/-- Python `s.split()` on strings: the whitespace-separated words. -/
def pySplitStr (s : String) : List String :=
  (pyWords s.data).map String.mk

/-- Stage 1 of `match_speaker`: exact lookup of the normalized label. -/
def stage_exact (cache : Cache) (normalized : String) : Option PersonRow :=
  dictFind cache normalized

/-- Stage 2 of `match_speaker`: reversed token order. -/
def stage_reversed (cache : Cache) (parts : List String) : Option PersonRow :=
  if parts.length ≥ 2 then
    dictFind cache (String.intercalate " " parts.reverse)
  else none

/-- Stage 3 of `match_speaker`: surname-first then given-first rotations. -/
def stage_rotated (cache : Cache) (parts : List String) : Option PersonRow :=
  if parts.length ≥ 2 then
    match dictFind cache (parts.getLastD "" ++ " " ++ String.intercalate " " parts.dropLast) with
    | some p => some p
    | none => dictFind cache (String.intercalate " " parts.dropLast ++ " " ++ parts.getLastD "")
  else none

/-- The candidate list of stage 4: cache entries whose first and last key
tokens match the query's first and last tokens in either order, in cache
insertion order. -/
def stage4Cands (cache : Cache) (surname firstGiven : String) : List PersonRow :=
  (cache.filter (fun kv =>
    let kp := pySplitStr kv.1
    kp.length ≥ 2 ∧
      ((kp.getLastD "" = surname ∧ kp.headD "" = firstGiven) ∨
       (kp.headD "" = surname ∧ kp.getLastD "" = firstGiven)))).map (fun kv => kv.2)

/-- Stage 4 of `match_speaker`: surname + first given name; one candidate is
returned, more than one returns the first (flagged by a warning log). -/
def stage_surname_given (cache : Cache) (parts : List String) : Option PersonRow :=
  if parts.length ≥ 2 then
    (stage4Cands cache (parts.getLastD "") (parts.headD "")).head?
  else none

/-- The candidate list of stage 5: cache entries whose last key token equals
the query's last token, in cache insertion order. -/
def stage5Cands (cache : Cache) (surname : String) : List PersonRow :=
  (cache.filter (fun kv =>
    let kp := pySplitStr kv.1
    kp ≠ [] ∧ kp.getLastD "" = surname)).map (fun kv => kv.2)

/-- Stage 5 of `match_speaker`: surname only; exactly one candidate is
returned, any ambiguity yields no match. -/
def stage_surname_only (cache : Cache) (parts : List String) : Option PersonRow :=
  if parts.length ≥ 1 then
    let cands := stage5Cands cache (parts.getLastD "")
    if cands.length = 1 then cands.head? else none
  else none

/-- Model of `NameMatcher.match_speaker`: the five stages tried in order with
early return; empty and sentinel labels match nothing. -/
def match_speaker (cache : Cache) (speaker_name : String) : Option PersonRow :=
  if speaker_name = "" ∨ speaker_name = "Unknown" then none
  else
    let normalized := normalize_name speaker_name
    let parts := pySplitStr normalized
    (((stage_exact cache normalized).orElse fun _ =>
       stage_reversed cache parts).orElse fun _ =>
       (stage_rotated cache parts).orElse fun _ =>
       stage_surname_given cache parts).orElse fun _ =>
     stage_surname_only cache parts

/-- Python `s.replace(' ', '_')`. -/
def underscoreSpaces (s : String) : String :=
  String.mk (s.data.map (fun c => if c = ' ' then '_' else c))

/-- The deterministic placeholder id of `get_or_create_unknown_speaker`. -/
def unknown_person_id (speaker_name : String) : String :=
  "unknown_" ++ underscoreSpaces (normalize_name speaker_name)

/-! ## WebTV transcript processor (webtv_processor.py)

`process_file` reads one parsed JSON transcript and upserts one session, its
topics and its speech segments; it also threads the matcher cache, because
`get_or_create_unknown_speaker` inserts into both the `persons` table and the
dict.  The processor state is therefore the database plus the cache. -/

/-- One entry of an interventions array: a JSON object with optional
`speaker` / `text` keys, or a non-object entry (skipped by the
`isinstance(intervention, dict)` guard). -/
inductive IvEntry where
  | obj (speaker : Option String) (text : Option String)
  | nonDict
deriving DecidableEq, Repr

/-- One parsed WebTV JSON file whose stem split `"leg__num"` and the two
`int(...)` conversions succeeded (a file for which any of these raises is a
failing file, handled by the batch loop of `process_all`).  `contents` is the
JSON object `data['contents']` as an insertion-ordered association list. -/
structure TFile where
  legS : String
  numS : String
  legN : Nat
  numN : Nat
  path : String
  contents : List (String × List IvEntry)
deriving DecidableEq, Repr

/-- Processor state: the (uncommitted view of the) database plus the matcher
dict. -/
structure PState where
  db : DB := {}
  cache : Cache := []
deriving DecidableEq, Repr

/-- Python truthiness of `text.strip()`: a string is blank iff every character
is whitespace. -/
def isBlank (s : String) : Bool :=
  s.data.all isPyWs

/-- Model of `NameMatcher.get_or_create_unknown_speaker`: look the placeholder
id up in the `persons` table; if absent, insert a placeholder row (also into
the dict) and return it. -/
def get_or_create_unknown_speaker (st : PState) (speaker_name : String) :
    PersonRow × PState :=
  let pid := unknown_person_id speaker_name
  match st.db.persons.find? (fun p => p.person_id = pid) with
  | some p => (p, st)
  | none =>
    let ws := pySplitStr speaker_name
    let p : PersonRow :=
      { person_id := pid
        full_name := speaker_name
        family_name := if ws ≠ [] then ws.getLastD "" else speaker_name
        given_name := if ws.length > 1 then ws.headD "" else "" }
    (p, { db := { st.db with persons := st.db.persons ++ [p] },
          cache := dictInsert (normalize_name speaker_name) p st.cache })

/-- The speaker-resolution step of the intervention loop: `match_speaker`,
falling back to `get_or_create_unknown_speaker` (which may write a person
row). -/
def resolveSpeaker (st : PState) (speaker_name : String) : PersonRow × PState :=
  match match_speaker st.cache speaker_name with
  | some p => (p, st)
  | none => get_or_create_unknown_speaker st speaker_name

/-- The dedup query `query(SpeechSegment).filter(speech_id == ...).first()`
as a boolean. -/
def hasSpeech (db : DB) (id : String) : Bool :=
  db.speeches.any (fun r => r.speech_id = id)

/-- The topic lookup `query(Topic).filter(topic_id == ...).first()` as a
boolean. -/
def hasTopic (db : DB) (id : String) : Bool :=
  db.topics.any (fun r => r.topic_id = id)

/-- Model of the intervention loop body of `WebTVProcessor.process_file`:
skip non-objects and blank texts, resolve the speaker (creating a placeholder
person on failure), then insert the speech segment unless its derived id
already exists. -/
def processIntervention (sessionId topicId : String) (sessionDate : Nat)
    (ref : String) (st : PState) (idx : Nat) (iv : IvEntry) : PState :=
  match iv with
  | .nonDict => st
  | .obj speakerOpt textOpt =>
    let speaker_name := speakerOpt.getD "Unknown"
    let text := textOpt.getD ""
    if isBlank text then st
    else
      let r := resolveSpeaker st speaker_name
      let speech_id := generate_speech_id topicId idx text
      if hasSpeech r.2.db speech_id then r.2
      else
        { r.2 with db.speeches := r.2.db.speeches ++
            [{ speech_id := speech_id
               session_id := sessionId
               topic_id := topicId
               speaker_id := r.1.person_id
               text := text
               date := sessionDate
               source_reference := ref
               order_in_topic := idx }] }

/-- Model of the topic loop body of `WebTVProcessor.process_file`: skip empty
titles and empty intervention lists, create the topic unless its derived id
already exists, then process the interventions with their enumeration
indices. -/
def processTopicBlock (sessionId : String) (sessionDate : Nat) (ref : String)
    (st : PState) (block : String × List IvEntry) : PState :=
  if block.1 = "" ∨ block.2 = [] then st
  else
    let topicId := generate_topic_id sessionId block.1
    let st :=
      if hasTopic st.db topicId then st
      else { st with db.topics := st.db.topics ++
               [{ topic_id := topicId, session_id := sessionId, title := block.1 }] }
    block.2.enum.foldl
      (fun s p => processIntervention sessionId topicId sessionDate ref s p.1 p.2) st

/-- Model of `WebTVProcessor.process_file` on a successfully parsed file:
create the session (with the processing date as placeholder) unless its
derived id already exists, then process all topic blocks.  The date written to
speech rows is the one of the session row in use, which for a pre-existing
session is its stored date. -/
def process_file (today : Nat) (st : PState) (f : TFile) : PState :=
  let sessionId := "session_" ++ f.legS ++ "_" ++ f.numS
  let found := st.db.sessions.find? (fun s => s.session_id = sessionId)
  let sess : SessionRow :=
    match found with
    | some s => s
    | none =>
      { session_id := sessionId
        date := today
        chamber := "C"
        legislature := f.legN
        session_number := f.numN
        source_reference := f.path }
  let st :=
    match found with
    | some _ => st
    | none => { st with db.sessions := st.db.sessions ++ [sess] }
  f.contents.foldl (processTopicBlock sessionId sess.date f.path) st

/-! ## Batch processing with transactions (WebTVProcessor.process_all)

The SQLAlchemy session is modelled by the pair of the last committed database
and the current (uncommitted) view; `commit` publishes the current view,
`rollback` discards everything since the last commit.  The matcher dict is an
in-memory cache and is unaffected by rollback.  A batch input is a list of
files, where `none` stands for a file whose parsing raises before any write
(e.g. malformed JSON or filename). -/

/-- Transactional batch state of `process_all`. -/
structure BatchState where
  committed : DB := {}
  current : DB := {}
  cache : Cache := []
  count : Nat := 0
deriving DecidableEq, Repr

/-- One iteration of the `process_all` loop: on success increment the count
and commit every 10th file; on failure roll back to the last commit and
continue. -/
def processAllStep (today : Nat) (bs : BatchState) (f : Option TFile) : BatchState :=
  match f with
  | none => { bs with current := bs.committed }
  | some tf =>
    let st := process_file today { db := bs.current, cache := bs.cache } tf
    let bs := { bs with current := st.db, cache := st.cache, count := bs.count + 1 }
    if bs.count % 10 = 0 then { bs with committed := bs.current } else bs

/-- Model of `WebTVProcessor.process_all`: process every file with per-file
failure isolation, then a final commit; returns the state and the count. -/
def process_all (today : Nat) (bs : BatchState) (files : List (Option TFile)) :
    BatchState :=
  let bs := files.foldl (processAllStep today) bs
  { bs with committed := bs.current }

/-! ## OpenParlamento biographical processor (openparlamento_processor.py) -/

/-- Python `s.strip()` on strings. -/
def pyStripStr (s : String) : String :=
  String.mk (pyStrip s.data)

/-- Python dict assignment on a string-keyed JSON object. -/
def assignAssoc (l : List (String × Option String)) (k : String)
    (v : Option String) : List (String × Option String) :=
  match l with
  | [] => [(k, v)]
  | (k', v') :: rest =>
    if k' = k then (k, v) :: rest else (k', v') :: assignAssoc rest k v

/-- Python truthiness of an optional string (absent, `None` and `""` are
falsy). -/
def pyTruthy : Option String → Bool
  | none => false
  | some s => s ≠ ""

/-- Python `a or b` on optional strings. -/
def pyOr (a b : Option String) : Option String :=
  if pyTruthy a then a else b

/-- The person id derived in `OpenParlamentoProcessor.process_file`:
`f"op_{data.get('id', 'unknown')}"`. -/
def op_person_id (data : OPRecord) : String :=
  "op_" ++ (match data.id with | some n => toString n | none => "unknown")

/-- The party value extracted from `current_roles.parl.latest_group`
(acronym preferred over name, Python `or`). -/
def op_party (data : OPRecord) : Option String :=
  match data.current_roles with
  | none => none
  | some cr =>
    match cr.parl with
    | none => none
    | some pr =>
      match pr.latest_group with
      | none => pyOr none none
      | some g => pyOr g.acronym g.name

/-- Model of `OpenParlamentoProcessor._create_person`. -/
def op_create_person (person_id : String) (data : OPRecord) : PersonRow :=
  let family_name := data.family_name.getD ""
  let given_name := data.given_name.getD ""
  let full_name := pyStripStr (family_name ++ " " ++ given_name)
  let party := op_party data
  let roles : List RoleRec :=
    match data.current_roles with
    | none => []
    | some cr =>
      match cr.parl with
      | none => []
      | some pr => [{ role := pr.role, start_date := pr.start_date,
                      end_date := pr.end_date, party := party }]
  { person_id := person_id
    full_name := full_name
    family_name := family_name
    given_name := given_name
    party := party
    roles := roles
    source_ids := [("openparlamento", some ("p" ++ (match data.id with
                     | some n => toString n | none => ""))),
                   ("slug", data.slug)]
    birth_date := data.birth_date
    birth_place := data.birth_place
    image_url := data.image
    slug := data.slug
    raw_data := some data }

/-- Statement `if not person.family_name: person.family_name = ...` of
`_update_person`. -/
def upd_family (data : OPRecord) (person : PersonRow) : PersonRow :=
  if person.family_name = "" then
    { person with family_name := data.family_name.getD "" }
  else person

/-- Statement `if not person.given_name: person.given_name = ...` of
`_update_person`. -/
def upd_given (data : OPRecord) (person : PersonRow) : PersonRow :=
  if person.given_name = "" then
    { person with given_name := data.given_name.getD "" }
  else person

/-- Statement `if not person.full_name: person.full_name = ...` of
`_update_person` (runs after the two fills above and uses their results). -/
def upd_full (person : PersonRow) : PersonRow :=
  if person.full_name = "" then
    { person with full_name :=
        pyStripStr (person.family_name ++ " " ++ person.given_name) }
  else person

/-- The party-overwrite block of `_update_person`: the stored party is
replaced whenever the extracted value is truthy. -/
def upd_party (data : OPRecord) (person : PersonRow) : PersonRow :=
  match op_party data with
  | some pa => if pa ≠ "" then { person with party := some pa } else person
  | none => person

/-- The source-ids block of `_update_person`: merge the `openparlamento` key
into a truthy dict, else install a fresh dict. -/
def upd_sources (data : OPRecord) (person : PersonRow) : PersonRow :=
  let opid := "p" ++ (match data.id with | some n => toString n | none => "")
  if person.source_ids ≠ [] then
    { person with source_ids :=
        assignAssoc person.source_ids "openparlamento" (some opid) }
  else
    { person with source_ids := [("openparlamento", some opid), ("slug", data.slug)] }

/-- Model of `OpenParlamentoProcessor._update_person`: fill name fields only
when empty, overwrite the party whenever a truthy new value is available,
merge the `openparlamento` source id, replace the raw payload — in statement
order. -/
def op_update_person (person : PersonRow) (data : OPRecord) : PersonRow :=
  { upd_sources data (upd_party data (upd_full (upd_given data (upd_family data person))))
      with raw_data := some data }

/-- Model of `OpenParlamentoProcessor.process_file` on a successfully parsed
record: update the person whose derived id already exists, create it
otherwise. -/
def op_process_file (persons : List PersonRow) (data : OPRecord) : List PersonRow :=
  let pid := op_person_id data
  match persons.find? (fun p => p.person_id = pid) with
  | some _ =>
    persons.map (fun p => if p.person_id = pid then op_update_person p data else p)
  | none => persons ++ [op_create_person pid data]

/-! ## WebTV fetcher: incremental discovery (webtv_fetcher.py)

The remote boundary (`check_session_exists`, a HEAD probe, and
`fetch_session`, a full fetch) is abstracted into one existence oracle: in
this model a session number can be fetched exactly when the probe reports it
to exist.  Local materialization is the list of session numbers that already
have files. -/

/-- Result of an incremental run: the sequence numbers probed for existence in
order, the sequence numbers newly fetched (files written) in order, and the
returned count. -/
structure FetchResult where
  probes : List Nat := []
  fetched : List Nat := []
  count : Nat := 0
deriving DecidableEq, Repr

/-- Model of `WebTVFetcher.fetch_session_range` (with its default
`skip_existing=True`): attempt every number of `[start..ending]` that is not
materialized locally; a fetch succeeds exactly when the session exists
remotely.  Returns the fetched numbers and their count. -/
def fetch_session_range (locals_ : List Nat) (remote : Nat → Bool)
    (start ending : Nat) : List Nat :=
  ((List.range' start (ending + 1 - start)).filter
    (fun n => decide (n ∉ locals_) && remote n))

/-- The probe loop of `WebTVFetcher.fetch_incremental`: scan from `n`, with
`fuel` probes remaining (the `range(start, start + max_attempts)` bound),
tracking the best existing number found and the consecutive-miss counter;
break after the 5th consecutive miss.  Returns the probed numbers and the
final `end_session`. -/
def probeLoop (remote : Nat → Bool) : Nat → Nat → Nat → Nat → List Nat × Nat
  | _, 0, endS, _ => ([], endS)
  | n, fuel + 1, endS, misses =>
    if remote n then
      let r := probeLoop remote (n + 1) fuel n 0
      (n :: r.1, r.2)
    else if misses + 1 ≥ 5 then ([n], endS)
    else
      let r := probeLoop remote (n + 1) fuel endS (misses + 1)
      (n :: r.1, r.2)

/-- Model of `WebTVFetcher.fetch_incremental`: no watermark means an immediate
empty return with no probes; otherwise probe forward from the watermark, cap
by `max_sessions` when truthy, and fetch the resulting range. -/
def fetch_incremental (locals_ : List Nat) (remote : Nat → Bool)
    (max_sessions : Option Nat) (max_attempts : Nat := 100) : FetchResult :=
  match locals_.max? with
  | none => {}
  | some last =>
    let start := last + 1
    let (probes, endS) := probeLoop remote start max_attempts start 0
    if endS < start then { probes := probes }
    else
      let endS :=
        match max_sessions with
        | some m => if m ≠ 0 then min endS (start + m - 1) else endS
        | none => endS
      let fetched := fetch_session_range locals_ remote start endS
      { probes := probes, fetched := fetched, count := fetched.length }

/-- Model of `WebTVFetcher.fetch_session_range_smart`: an explicit start makes
a manual range fetch (defaulting the end to `start + 100`); otherwise
incremental mode. -/
def fetch_session_range_smart (locals_ : List Nat) (remote : Nat → Bool)
    (start ending : Option Nat) (incremental : Bool)
    (max_sessions : Option Nat) : FetchResult :=
  match start with
  | none =>
    if incremental then fetch_incremental locals_ remote max_sessions else {}
  | some s =>
    let e := ending.getD (s + 100)
    let fetched := fetch_session_range locals_ remote s e
    { fetched := fetched, count := fetched.length }

/-! ## Concrete fixtures used by witnesses and counterexamples -/

/-- The remote-existence oracle of the §8 discovery scenario: sequence numbers
401, 402, 404 and 405 exist, everything else does not. -/
def remoteScenario (n : Nat) : Bool :=
  n = 401 || n = 402 || n = 404 || n = 405

/-- An OpenParlamento record with every key absent. -/
def emptyOPRecord : OPRecord :=
  { id := none, family_name := none, given_name := none, slug := none,
    birth_date := none, birth_place := none, image := none,
    current_roles := none }

/-- A parseable transcript file with no debates (its processing only writes
the session row). -/
def sessionOnlyFile : TFile :=
  { legS := "19", numS := "1", legN := 19, numN := 1, path := "19__1.json",
    contents := [] }

/-! ## Basic facts about identifier derivation -/

/-- The hex rendering of a byte list has two characters per byte. -/
theorem length_hexOfBytes (l : List Nat) : (hexOfBytes l).length = 2 * l.length := by
  induction l with
  | nil => rfl
  | cons b rest ih =>
    simp only [hexOfBytes, List.length_cons, ih]
    omega

/-- An MD5 digest always has 16 bytes. -/
theorem length_md5digest (msg : List Nat) : (md5digest msg).length = 16 := by
  simp [md5digest, le4]

/-- An MD5 hexdigest always has 32 characters. -/
theorem length_md5hexChars (s : String) : (md5hexChars s).length = 32 := by
  simp [md5hexChars, length_hexOfBytes, length_md5digest]

set_option maxRecDepth 20000 in
/-- C2 (counterexample): the topic key is not case-insensitive in the title —
the code hashes the raw title, so the single-character titles `"a"` and `"A"`,
which differ only in letter case, already receive different topic
identifiers. -/
theorem topic_id_case_sensitive_cex :
    generate_topic_id "session_19_347" "a" ≠ generate_topic_id "session_19_347" "A" := by
  decide

/-- The length of a packed char list. -/
theorem length_mk (l : List Char) : (String.mk l).length = l.length := rfl

/-- A topic id is always the session id plus 15 characters. -/
theorem length_generate_topic_id (session_id title : String) :
    (generate_topic_id session_id title).length = session_id.length + 15 := by
  have h8 : (String.mk ((md5hexChars title).take 8)).length = 8 := by
    rw [length_mk, List.length_take, length_md5hexChars]
    omega
  show (session_id ++ "_topic_" ++ String.mk ((md5hexChars title).take 8)).length = _
  rw [String.length_append, String.length_append, h8]
  have h7 : "_topic_".length = 7 := rfl
  omega

/-- A speech id is always the topic id plus 20 characters. -/
theorem length_generate_speech_id (topic_id : String) (idx : Nat) (text : String) :
    (generate_speech_id topic_id idx text).length = topic_id.length + 20 := by
  have h12 : (String.mk ((md5hexChars (topic_id ++ "_" ++ toString idx ++ "_" ++ text.take 100)).take 12)).length = 12 := by
    rw [length_mk, List.length_take, length_md5hexChars]
    omega
  show (topic_id ++ "_speech_" ++ String.mk _).length = _
  rw [String.length_append, String.length_append, h12]
  have h8 : "_speech_".length = 8 := rfl
  omega

/-- C2 (amended): the topic key is a deterministic function of the session
identifier and the raw (unnormalized) title: the session id concatenated with
a fixed 8-hex-character fingerprint of the exact title bytes. -/
theorem topic_id_deterministic_raw_title (session_id title : String) :
    generate_topic_id session_id title =
      session_id ++ "_topic_" ++ String.mk ((md5hexChars title).take 8) ∧
    (generate_topic_id session_id title).length = session_id.length + 15 := by
  exact ⟨rfl, length_generate_topic_id session_id title⟩

set_option maxRecDepth 20000 in
/-- C7 (counterexample): identifier derivation does not reject empty or
undefined inputs — there is no `InvalidKeyInput` anywhere in the code.  An
empty title, an empty topic/text pair and a record with no `id` key all
produce well-formed keys instead of failing. -/
theorem idkey_empty_inputs_produce_keys_cex :
    generate_topic_id "session_19_347" "" = "session_19_347_topic_d41d8cd9" ∧
    generate_speech_id "" 0 "" = "_speech_9b200b2e951f" ∧
    op_person_id emptyOPRecord = "op_unknown" := by
  refine ⟨by decide, by decide, rfl⟩

/-- C7 (amended): the key-derivation functions are total and never fail — for
every input, empty or not, each produces a key of the fixed expected shape
(prefix plus fixed-width fingerprint). -/
theorem idkey_total_never_fails (session_id title topic_id text : String)
    (idx : Nat) (data : OPRecord) :
    (generate_topic_id session_id title).length = session_id.length + 15 ∧
    (generate_speech_id topic_id idx text).length = topic_id.length + 20 ∧
    (∃ tl, op_person_id data = "op_" ++ tl) := by
  exact ⟨length_generate_topic_id session_id title,
         length_generate_speech_id topic_id idx text, ⟨_, rfl⟩⟩

set_option maxRecDepth 20000 in
/-- C5: with watermark 400 and remote sessions existing at 401, 402, 404, 405
but at none of 403, 406–410, incremental discovery probes exactly 401–410
(stopping at the fifth consecutive miss, 410, and probing nothing beyond it)
and fetches exactly 401, 402, 404, 405. -/
theorem fetch_incremental_watermark_scenario :
    fetch_incremental [398, 399, 400] remoteScenario none =
      { probes := [401, 402, 403, 404, 405, 406, 407, 408, 409, 410],
        fetched := [401, 402, 404, 405], count := 4 } := by
  decide

/-- C9: with no locally materialized session (no watermark), incremental
discovery performs zero existence probes and fetches nothing, for every
remote oracle and every cap; an explicit manual range passed to the smart
entry point is honoured as a plain range fetch. -/
theorem fetch_incremental_no_watermark (remote : Nat → Bool)
    (ms : Option Nat) (ma : Nat) :
    fetch_incremental [] remote ms ma = {} ∧
    ∀ s e, fetch_session_range_smart [] remote (some s) (some e) true ms =
      { fetched := fetch_session_range [] remote s e,
        count := (fetch_session_range [] remote s e).length } := by
  exact ⟨rfl, fun s e => rfl⟩

/-! ## C8: batch processing, rollback and the returned count -/

set_option maxRecDepth 20000 in
/-- C8 (counterexample): a failing file does not only roll back its own
writes.  Processing the session-only file alone commits its session row; but
in the batch `[good, bad]` the failure of the second file rolls back the
first file's (not yet committed) session row as well, while the returned
count still reports 1 — so the count does not equal the number of files whose
writes were committed (0). -/
theorem process_all_rollback_cex :
    (process_all 0 {} [some sessionOnlyFile]).committed.sessions =
      [{ session_id := "session_19_1", date := 0, chamber := "C",
         legislature := 19, session_number := 1,
         source_reference := "19__1.json" }] ∧
    (process_all 0 {} [some sessionOnlyFile, none]).count = 1 ∧
    (process_all 0 {} [some sessionOnlyFile, none]).committed.sessions = [] := by
  refine ⟨rfl, rfl, rfl⟩

/-- C8 (amended): per-file failure isolation continues the batch, but a
failure rolls the current transaction back to the last periodic commit
(taken every 10th successfully processed file), discarding the uncommitted
writes of earlier files along with the failing file's; the returned count is
the number of files successfully processed — which can exceed the number of
files whose writes survive — and the final state is fully committed. -/
theorem process_all_counts_processed_files (today : Nat) (bs : BatchState)
    (files : List (Option TFile)) :
    (process_all today bs files).count =
      bs.count + (files.filter (fun f => f.isSome)).length ∧
    (process_all today bs files).committed = (process_all today bs files).current := by
  have main : ∀ (fs : List (Option TFile)) (b : BatchState),
      (fs.foldl (processAllStep today) b).count =
        b.count + (fs.filter (fun f => f.isSome)).length := by
    intro fs
    induction fs with
    | nil => intro b; simp
    | cons f rest ih =>
      intro b
      cases f with
      | none =>
        simp only [List.foldl_cons, List.filter_cons, Option.isSome_none,
          Bool.false_eq_true, if_false, ih]
        rfl
      | some tf =>
        simp only [List.foldl_cons, List.filter_cons, Option.isSome_some,
          if_true, List.length_cons, ih]
        have hstep : (processAllStep today b (some tf)).count = b.count + 1 := by
          simp only [processAllStep]
          split <;> rfl
        rw [hstep]
        omega
  constructor
  · exact main files bs
  · rfl

/-! ## C6: biographical re-ingestion is a fill-in-only update -/

/-- The name-fill steps never change the party, and the later steps never
change the name fields. -/
theorem upd_party_overwrites (data : OPRecord) (person : PersonRow) (pa : String)
    (hpa : op_party data = some pa) (hne : pa ≠ "") :
    (upd_party data person).party = some pa := by
  simp [upd_party, hpa, hne]

/-- C6: re-ingesting a record whose derived person id already exists routes to
the fill-in-only update, where a truthy (non-empty) extracted party always
overwrites the stored party, while `given_name`, `family_name` and
`full_name` are never overwritten when already non-blank. -/
theorem op_reingest_fill_in_only (persons : List PersonRow) (data : OPRecord)
    (p : PersonRow)
    (hfind : persons.find? (fun q => q.person_id = op_person_id data) = some p) :
    op_process_file persons data =
      persons.map (fun q => if q.person_id = op_person_id data then
        op_update_person q data else q) ∧
    (∀ pa, op_party data = some pa → pa ≠ "" →
      (op_update_person p data).party = some pa) ∧
    (p.given_name ≠ "" → (op_update_person p data).given_name = p.given_name) ∧
    (p.family_name ≠ "" → (op_update_person p data).family_name = p.family_name) ∧
    (p.full_name ≠ "" → (op_update_person p data).full_name = p.full_name) := by
  have party_sources : ∀ q : PersonRow,
      (upd_sources data (upd_party data q)).given_name = q.given_name ∧
      (upd_sources data (upd_party data q)).family_name = q.family_name ∧
      (upd_sources data (upd_party data q)).full_name = q.full_name := by
    intro q
    unfold upd_sources upd_party
    rcases h : op_party data with _ | pa <;> simp <;> split <;> split <;> simp
  refine ⟨?_, ?_, ?_, ?_, ?_⟩
  · simp only [op_process_file, hfind]
  · intro pa hpa hne
    show (upd_sources data (upd_party data _)).party = some pa
    unfold upd_sources
    split <;> split <;> simpa using upd_party_overwrites data _ pa hpa hne
  · intro h
    show (upd_sources data (upd_party data (upd_full (upd_given data (upd_family data p))))).given_name = _
    rw [(party_sources _).1]
    have h1 : (upd_family data p).given_name = p.given_name := by
      unfold upd_family; split <;> rfl
    have h2 : (upd_given data (upd_family data p)) = upd_family data p := by
      unfold upd_given; rw [h1]; simp [h]
    rw [h2]
    unfold upd_full; split <;> simp [h1]
  · intro h
    show (upd_sources data (upd_party data (upd_full (upd_given data (upd_family data p))))).family_name = _
    rw [(party_sources _).2.1]
    have h1 : (upd_family data p) = p := by
      unfold upd_family; simp [h]
    rw [h1]
    have h2 : (upd_given data p).family_name = p.family_name := by
      unfold upd_given; split <;> rfl
    unfold upd_full; split <;> simp [h2]
  · intro h
    show (upd_sources data (upd_party data (upd_full (upd_given data (upd_family data p))))).full_name = _
    rw [(party_sources _).2.2]
    have h1 : (upd_family data p).full_name = p.full_name := by
      unfold upd_family; split <;> rfl
    have h2 : (upd_given data (upd_family data p)).full_name = p.full_name := by
      unfold upd_given; split <;> simp [h1]
    unfold upd_full
    split <;> simp_all

/-- C6 witness fixture: an existing person with non-blank names and party. -/
def marioExisting : PersonRow :=
  { person_id := "op_1", full_name := "Rossi Mario", family_name := "Rossi",
    given_name := "Mario", party := some "PD" }

/-- C6 witness fixture: the parliamentary role of the re-ingested record. -/
def reingestParl : OPParl :=
  { role := some "deputato", start_date := none, end_date := none,
    latest_group := some { acronym := some "M5S", name := some "Movimento" } }

/-- C6 witness fixture: a re-ingested record with id 1, a blank given name
and a new party acronym. -/
def reingestRecord : OPRecord :=
  { id := some 1, family_name := some "Rossi", given_name := some "",
    slug := some "rossi-mario", birth_date := none, birth_place := none,
    image := none, current_roles := some { parl := some reingestParl } }

/-- Witness for C6 at a concrete person and record. -/
theorem op_reingest_fill_in_only_witness :
    [marioExisting].find? (fun q => q.person_id = op_person_id reingestRecord) =
      some marioExisting ∧
    (op_process_file [marioExisting] reingestRecord =
      [marioExisting].map (fun q => if q.person_id = op_person_id reingestRecord then
        op_update_person q reingestRecord else q) ∧
    (∀ pa, op_party reingestRecord = some pa → pa ≠ "" →
      (op_update_person marioExisting reingestRecord).party = some pa) ∧
    (marioExisting.given_name ≠ "" →
      (op_update_person marioExisting reingestRecord).given_name = marioExisting.given_name) ∧
    (marioExisting.family_name ≠ "" →
      (op_update_person marioExisting reingestRecord).family_name = marioExisting.family_name) ∧
    (marioExisting.full_name ≠ "" →
      (op_update_person marioExisting reingestRecord).full_name = marioExisting.full_name)) :=
  ⟨by decide, op_reingest_fill_in_only [marioExisting] reingestRecord marioExisting (by decide)⟩

/-! ## C10: the speech identifier depends only on (topic, ordinal, first 100
characters of the text) -/

/-- Speaker resolution never touches the sessions table. -/
theorem resolveSpeaker_sessions (st : PState) (name : String) :
    (resolveSpeaker st name).2.db.sessions = st.db.sessions := by
  unfold resolveSpeaker get_or_create_unknown_speaker
  cases hm : match_speaker st.cache name
  · cases hf : st.db.persons.find? (fun p => p.person_id = unknown_person_id name) <;>
      simp [hf]
  · simp

/-- Speaker resolution never touches the topics table. -/
theorem resolveSpeaker_topics (st : PState) (name : String) :
    (resolveSpeaker st name).2.db.topics = st.db.topics := by
  unfold resolveSpeaker get_or_create_unknown_speaker
  cases hm : match_speaker st.cache name
  · cases hf : st.db.persons.find? (fun p => p.person_id = unknown_person_id name) <;>
      simp [hf]
  · simp

/-- Speaker resolution never touches the speeches table. -/
theorem resolveSpeaker_speeches (st : PState) (name : String) :
    (resolveSpeaker st name).2.db.speeches = st.db.speeches := by
  unfold resolveSpeaker get_or_create_unknown_speaker
  cases hm : match_speaker st.cache name
  · cases hf : st.db.persons.find? (fun p => p.person_id = unknown_person_id name) <;>
      simp [hf]
  · simp

/-- C10: two texts agreeing on their first 100 characters receive the same
speech identifier at the same topic and ordinal; consequently the
intervention-processing step of `process_file` inserts nothing when a segment
with that identifier (derived from either text) is already stored. -/
theorem speech_id_first_100_chars (topic_id : String) (idx : Nat)
    (t1 t2 : String) (h : t1.take 100 = t2.take 100) :
    generate_speech_id topic_id idx t1 = generate_speech_id topic_id idx t2 ∧
    ∀ (st : PState) (sid : String) (d : Nat) (ref : String) (sp : Option String),
      hasSpeech st.db (generate_speech_id topic_id idx t2) = true →
      (processIntervention sid topic_id d ref st idx (IvEntry.obj sp (some t1))).db.speeches
        = st.db.speeches := by
  have hid : generate_speech_id topic_id idx t1 = generate_speech_id topic_id idx t2 := by
    unfold generate_speech_id
    rw [h]
  refine ⟨hid, ?_⟩
  intro st sid d ref sp hex
  have hrs : (resolveSpeaker st (sp.getD "Unknown")).2.db.speeches = st.db.speeches :=
    resolveSpeaker_speeches st (sp.getD "Unknown")
  have hpres : hasSpeech (resolveSpeaker st (sp.getD "Unknown")).2.db
      (generate_speech_id topic_id idx t1) = true := by
    unfold hasSpeech
    rw [hrs, hid]
    exact hex
  unfold processIntervention
  simp only [Option.getD_some]
  by_cases hb : isBlank t1
  · simp [hb]
  · simp [hb, hpres, hrs]

/-- C10 witness fixture: 100 `x`s followed by `AAA`. -/
def longTextA : String := String.mk (List.replicate 100 'x') ++ "AAA"

/-- C10 witness fixture: 100 `x`s followed by `BBB` (differs from
`longTextA` only after the 100th character). -/
def longTextB : String := String.mk (List.replicate 100 'x') ++ "BBB"

set_option maxRecDepth 40000 in
/-- Witness for C10 at two concrete 103-character texts. -/
theorem speech_id_first_100_chars_witness :
    longTextA.take 100 = longTextB.take 100 ∧
    (generate_speech_id "t" 3 longTextA = generate_speech_id "t" 3 longTextB ∧
     ∀ (st : PState) (sid : String) (d : Nat) (ref : String) (sp : Option String),
       hasSpeech st.db (generate_speech_id "t" 3 longTextB) = true →
       (processIntervention sid "t" d ref st 3 (IvEntry.obj sp (some longTextA))).db.speeches
         = st.db.speeches) :=
  ⟨by decide, speech_id_first_100_chars "t" 3 longTextA longTextB (by decide)⟩

/-! ## C4: the surname-only fallback never guesses -/

/-- C4 fixture: the indexed person `ROSSI Mario`. -/
def rossiMario : PersonRow :=
  { person_id := "op_10", full_name := "ROSSI Mario", family_name := "ROSSI",
    given_name := "Mario" }

/-- C4 fixture: the indexed person `ROSSI Giulia`. -/
def rossiGiulia : PersonRow :=
  { person_id := "op_11", full_name := "ROSSI Giulia", family_name := "ROSSI",
    given_name := "Giulia" }

/-- C4 fixture: the match index built over the two ROSSI persons. -/
def rossiCache : Cache := load_person_cache [rossiMario, rossiGiulia] []

set_option maxRecDepth 40000 in
/-- C4: whenever a query reaches the surname-only stage (stages 1–4 all
missed and the query has a last token), the matcher returns a person exactly
when precisely one index entry's last key token equals the query's last
token, and returns no match whenever two or more entries share that surname;
in particular `Mario ROSSI` resolves to the Mario record while bare `ROSSI`
(two entries with that surname) resolves to no match. -/
theorem surname_only_no_guess (cache : Cache) (q : String)
    (h0 : ¬(q = "" ∨ q = "Unknown"))
    (h1 : stage_exact cache (normalize_name q) = none)
    (h2 : stage_reversed cache (pySplitStr (normalize_name q)) = none)
    (h3 : stage_rotated cache (pySplitStr (normalize_name q)) = none)
    (h4 : stage_surname_given cache (pySplitStr (normalize_name q)) = none)
    (h5 : pySplitStr (normalize_name q) ≠ []) :
    (∀ p, match_speaker cache q = some p ↔
      stage5Cands cache ((pySplitStr (normalize_name q)).getLastD "") = [p]) ∧
    (2 ≤ (stage5Cands cache ((pySplitStr (normalize_name q)).getLastD "")).length →
      match_speaker cache q = none) ∧
    match_speaker rossiCache "Mario ROSSI" = some rossiMario ∧
    match_speaker rossiCache "ROSSI" = none := by
  have hms : match_speaker cache q =
      stage_surname_only cache (pySplitStr (normalize_name q)) := by
    unfold match_speaker
    rw [if_neg h0]
    simp only [h1, h2, h3, h4, Option.orElse]
  have hlen : (pySplitStr (normalize_name q)).length ≥ 1 := by
    rcases hp : pySplitStr (normalize_name q) with _ | ⟨a, rest⟩
    · exact absurd hp h5
    · simp
  have hso : stage_surname_only cache (pySplitStr (normalize_name q)) =
      (if (stage5Cands cache ((pySplitStr (normalize_name q)).getLastD "")).length = 1
       then (stage5Cands cache ((pySplitStr (normalize_name q)).getLastD "")).head?
       else none) := by
    unfold stage_surname_only
    rw [if_pos hlen]
  refine ⟨?_, ?_, by decide, by decide⟩
  · intro p
    rw [hms, hso]
    rcases hc : stage5Cands cache ((pySplitStr (normalize_name q)).getLastD "") with _ | ⟨c, cs⟩
    · simp
    · rcases cs with _ | ⟨c2, cs2⟩
      · simp
      · simp
  · intro h2le
    rw [hms, hso]
    rcases hc : stage5Cands cache ((pySplitStr (normalize_name q)).getLastD "") with _ | ⟨c, cs⟩
    · simp
    · rw [hc] at h2le
      rcases cs with _ | ⟨c2, cs2⟩
      · simp at h2le
      · simp

set_option maxRecDepth 40000 in
/-- Witness for C4: bare `ROSSI` against the two-person index reaches the
surname-only stage and is ambiguous. -/
theorem surname_only_no_guess_witness :
    pySplitStr (normalize_name "ROSSI") ≠ [] ∧
    ((∀ p, match_speaker rossiCache "ROSSI" = some p ↔
      stage5Cands rossiCache ((pySplitStr (normalize_name "ROSSI")).getLastD "") = [p]) ∧
    (2 ≤ (stage5Cands rossiCache ((pySplitStr (normalize_name "ROSSI")).getLastD "")).length →
      match_speaker rossiCache "ROSSI" = none) ∧
    match_speaker rossiCache "Mario ROSSI" = some rossiMario ∧
    match_speaker rossiCache "ROSSI" = none) :=
  ⟨by decide, surname_only_no_guess rossiCache "ROSSI" (by decide) (by decide)
    (by decide) (by decide) (by decide) (by decide)⟩

/-! ## C3: normalization idempotence

`_normalize_name` is not idempotent in general: removing a title token can
create a fresh occurrence of a title token (e.g. `"OONN"` normalizes to
`"ON"`, which normalizes to `""`).  It is idempotent on every input whose
normalized form is free of title-token occurrences; the lemmas below
establish the canonical shape of normalized output and the stability of each
normalization stage on it. -/

/-- Decoding `Char.ofNat` at a valid code point. -/
theorem toNat_ofNat_valid (n : Nat) (h : n.isValidChar) :
    (Char.ofNat n).toNat = n := by
  unfold Char.ofNat
  rw [dif_pos h]
  rfl

/-- Python's `str.upper` (ASCII fragment) is idempotent character-wise. -/
theorem toUpper_toUpper (c : Char) : (Char.toUpper c).toUpper = Char.toUpper c := by
  by_cases h : c.toNat ≥ 97 ∧ c.toNat ≤ 122
  · have h1 : Char.toUpper c = Char.ofNat (c.toNat - 32) := by
      unfold Char.toUpper
      rw [if_pos h]
    have h2 : (Char.ofNat (c.toNat - 32)).toNat = c.toNat - 32 :=
      toNat_ofNat_valid _ (Or.inl (by omega))
    rw [h1]
    unfold Char.toUpper
    rw [if_neg (by rw [h2]; omega)]
  · have h1 : Char.toUpper c = c := by
      unfold Char.toUpper
      rw [if_neg h]
    rw [h1, h1]

/-- Characters of a replacement result come from the scanned list. -/
theorem mem_of_mem_replaceGo (pat : List Char) :
    ∀ (fuel : Nat) (s : List Char) (c : Char),
      c ∈ replaceGo pat fuel s → c ∈ s := by
  intro fuel
  induction fuel with
  | zero =>
    intro s c hc
    cases s with
    | nil => simp [replaceGo] at hc
    | cons a rest => simp only [replaceGo] at hc; exact hc
  | succ n ih =>
    intro s c hc
    cases s with
    | nil => simp [replaceGo] at hc
    | cons a rest =>
      rw [replaceGo] at hc
      split at hc
      · exact List.drop_subset _ _ (ih _ _ hc)
      · rw [List.mem_cons] at hc
        rcases hc with rfl | hc
        · exact List.mem_cons_self _ _
        · exact List.mem_cons_of_mem _ (ih _ _ hc)

/-- Characters of a `replaceAll` result come from the input. -/
theorem mem_of_mem_replaceAll (pat s : List Char) (c : Char)
    (hc : c ∈ replaceAll pat s) : c ∈ s := by
  unfold replaceAll at hc
  split at hc
  · exact hc
  · exact mem_of_mem_replaceGo pat s.length s c hc

/-- A replacement scan is the identity when the pattern does not occur. -/
theorem replaceGo_of_not_hasSub (pat : List Char) :
    ∀ (fuel : Nat) (s : List Char), hasSub pat s = false →
      replaceGo pat fuel s = s := by
  intro fuel
  induction fuel with
  | zero =>
    intro s _
    cases s <;> rfl
  | succ n ih =>
    intro s hs
    cases s with
    | nil => rfl
    | cons a rest =>
      rw [hasSub, Bool.or_eq_false_iff] at hs
      rw [replaceGo, if_neg (by simp [hs.1]), ih rest hs.2]

/-- Python `replace` is the identity when the pattern does not occur. -/
theorem replaceAll_of_not_hasSub (pat s : List Char)
    (hs : hasSub pat s = false) : replaceAll pat s = s := by
  unfold replaceAll
  split
  · rfl
  · exact replaceGo_of_not_hasSub pat s.length s hs

/-- The title-stripping fold is the identity when no title occurs. -/
theorem foldl_replaceAll_id (ts : List (List Char)) (s : List Char)
    (h : ∀ t ∈ ts, hasSub t s = false) :
    ts.foldl (fun acc t => replaceAll t acc) s = s := by
  induction ts with
  | nil => rfl
  | cons t rest ih =>
    rw [List.foldl_cons, replaceAll_of_not_hasSub t s (h t (List.mem_cons_self t rest)),
      ih (fun u hu => h u (List.mem_cons_of_mem t hu))]

/-- Mapping a function that fixes every member is the identity. -/
theorem map_id_of_mem {α : Type} (f : α → α) :
    ∀ (l : List α), (∀ c ∈ l, f c = c) → l.map f = l := by
  intro l
  induction l with
  | nil => intro _; rfl
  | cons a rest ih =>
    intro h
    rw [List.map_cons, h a (List.mem_cons_self a rest),
      ih (fun c hc => h c (List.mem_cons_of_mem a hc))]

/-- Soundness of the word splitter: with a whitespace-free accumulator, every
produced word is non-empty and consists of whitespace-free characters
satisfying any predicate that holds on the accumulator and on the non-blank
input characters. -/
theorem pyWordsAux_sound (P : Char → Prop) :
    ∀ (s cur : List Char),
      (∀ c ∈ cur, isPyWs c = false ∧ P c) →
      (∀ c ∈ s, isPyWs c = false → P c) →
      ∀ w ∈ pyWordsAux cur s, w ≠ [] ∧ ∀ c ∈ w, isPyWs c = false ∧ P c := by
  intro s
  induction s with
  | nil =>
    intro cur hcur _ w hw
    rw [pyWordsAux] at hw
    split at hw
    · simp at hw
    · rename_i hne
      rw [List.mem_singleton] at hw
      subst hw
      refine ⟨by simpa using hne, ?_⟩
      intro c hc
      exact hcur c (by simpa using hc)
  | cons a rest ih =>
    intro cur hcur hs w hw
    rw [pyWordsAux] at hw
    by_cases ha : isPyWs a
    · rw [if_pos ha] at hw
      split at hw
      · exact ih [] (by simp) (fun c hc h => hs c (List.mem_cons_of_mem a hc) h) w hw
      · rename_i hne
        rw [List.mem_cons] at hw
        rcases hw with rfl | hw
        · refine ⟨by simpa using hne, ?_⟩
          intro c hc
          exact hcur c (by simpa using hc)
        · exact ih [] (by simp) (fun c hc h => hs c (List.mem_cons_of_mem a hc) h) w hw
    · rw [if_neg ha] at hw
      refine ih (a :: cur) ?_ (fun c hc h => hs c (List.mem_cons_of_mem a hc) h) w hw
      intro c hc
      rw [List.mem_cons] at hc
      rcases hc with rfl | hc
      · exact ⟨by simpa using ha, hs c (List.mem_cons_self _ _) (by simpa using ha)⟩
      · exact hcur c hc

/-- Scanning a whitespace-free word prepends its reverse to the accumulator. -/
theorem pyWordsAux_run (w : List Char) :
    ∀ (cur t : List Char), (∀ c ∈ w, isPyWs c = false) →
      pyWordsAux cur (w ++ t) = pyWordsAux (w.reverse ++ cur) t := by
  induction w with
  | nil => intro cur t _; simp
  | cons a w' ih =>
    intro cur t hw
    rw [List.cons_append, pyWordsAux,
      if_neg (by simp [hw a (List.mem_cons_self _ _)]),
      ih (a :: cur) t (fun c hc => hw c (List.mem_cons_of_mem a hc))]
    simp

/-- Joining then re-splitting canonical words is the identity. -/
theorem pyWords_joinWords :
    ∀ (ws : List (List Char)),
      (∀ w ∈ ws, w ≠ [] ∧ ∀ c ∈ w, isPyWs c = false) →
      pyWords (joinWords ws) = ws := by
  intro ws
  induction ws with
  | nil => intro _; rfl
  | cons w rest ih =>
    intro h
    obtain ⟨hwne, hwc⟩ := h w (List.mem_cons_self _ _)
    cases rest with
    | nil =>
      show pyWordsAux [] (joinWords [w]) = [w]
      have hjw : joinWords [w] = w := rfl
      have hrun := pyWordsAux_run w [] [] hwc
      rw [List.append_nil, List.append_nil] at hrun
      rw [hjw, hrun, pyWordsAux, if_neg (by simp [hwne]), List.reverse_reverse]
    | cons r rs =>
      show pyWordsAux [] (joinWords (w :: r :: rs)) = w :: r :: rs
      have hj : joinWords (w :: r :: rs) = w ++ ' ' :: joinWords (r :: rs) := rfl
      have hrun := pyWordsAux_run w [] (' ' :: joinWords (r :: rs)) hwc
      rw [List.append_nil] at hrun
      rw [hj, hrun, pyWordsAux, if_pos (by decide),
        if_neg (by simp [hwne]), List.reverse_reverse]
      have hih := ih (fun u hu => h u (List.mem_cons_of_mem w hu))
      rw [pyWords] at hih
      rw [hih]

/-- Membership in a joined word list. -/
theorem mem_joinWords :
    ∀ (ws : List (List Char)) (c : Char), c ∈ joinWords ws →
      c = ' ' ∨ ∃ w, w ∈ ws ∧ c ∈ w := by
  intro ws
  induction ws with
  | nil => intro c hc; simp [joinWords] at hc
  | cons w rest ih =>
    intro c hc
    cases rest with
    | nil =>
      right
      exact ⟨w, List.mem_cons_self _ _, by simpa [joinWords] using hc⟩
    | cons r rs =>
      have hj : joinWords (w :: r :: rs) = w ++ ' ' :: joinWords (r :: rs) := rfl
      rw [hj, List.mem_append] at hc
      rcases hc with hc | hc
      · exact Or.inr ⟨w, List.mem_cons_self _ _, hc⟩
      · rw [List.mem_cons] at hc
        rcases hc with rfl | hc
        · exact Or.inl rfl
        · rcases ih c hc with h | ⟨u, hu, hcu⟩
          · exact Or.inl h
          · exact Or.inr ⟨u, List.mem_cons_of_mem w hu, hcu⟩

/-- A joined non-empty canonical word list is non-empty. -/
theorem joinWords_ne_nil (w : List Char) (rest : List (List Char))
    (hw : w ≠ []) : joinWords (w :: rest) ≠ [] := by
  cases rest with
  | nil => simpa [joinWords]
  | cons r rs =>
    have hj : joinWords (w :: r :: rs) = w ++ ' ' :: joinWords (r :: rs) := rfl
    rw [hj]
    simp

/-- The first character of a joined canonical word list is the first
character of its first word. -/
theorem joinWords_head? (w : List Char) (rest : List (List Char)) (hw : w ≠ []) :
    (joinWords (w :: rest)).head? = w.head? := by
  cases rest with
  | nil => rfl
  | cons r rs =>
    have hj : joinWords (w :: r :: rs) = w ++ ' ' :: joinWords (r :: rs) := rfl
    rw [hj]
    cases w with
    | nil => exact absurd rfl hw
    | cons a w' => rfl

/-- The last character of a joined canonical word list lies in one of its
words. -/
theorem joinWords_getLast?_mem :
    ∀ (ws : List (List Char)), (∀ w ∈ ws, w ≠ []) →
      ∀ c, (joinWords ws).getLast? = some c → ∃ w, w ∈ ws ∧ c ∈ w := by
  intro ws
  induction ws with
  | nil => intro _ c hc; simp [joinWords] at hc
  | cons w rest ih =>
    intro h c hc
    cases rest with
    | nil =>
      refine ⟨w, List.mem_cons_self _ _, ?_⟩
      exact List.mem_of_mem_getLast? (by simpa [joinWords] using hc)
    | cons r rs =>
      have hj : joinWords (w :: r :: rs) = w ++ ' ' :: joinWords (r :: rs) := rfl
      have hrne : joinWords (r :: rs) ≠ [] :=
        joinWords_ne_nil r rs (h r (List.mem_cons_of_mem w (List.mem_cons_self _ _)))
      rw [hj, List.getLast?_append_of_ne_nil w (by simp),
        show (' ' :: joinWords (r :: rs)) = [' '] ++ joinWords (r :: rs) from rfl,
        List.getLast?_append_of_ne_nil [' '] hrne] at hc
      rcases ih (fun u hu => h u (List.mem_cons_of_mem w hu)) c hc with ⟨u, hu, hcu⟩
      exact ⟨u, List.mem_cons_of_mem w hu, hcu⟩

/-- Stripping is the identity when both ends are not whitespace. -/
theorem pyStrip_eq_self (l : List Char)
    (h1 : ∀ c, l.head? = some c → isPyWs c = false)
    (h2 : ∀ c, l.getLast? = some c → isPyWs c = false) :
    pyStrip l = l := by
  unfold pyStrip
  have hd : l.dropWhile isPyWs = l := by
    cases l with
    | nil => rfl
    | cons a t => rw [List.dropWhile_cons, if_neg (by simp [h1 a rfl])]
  rw [hd]
  have hr : l.reverse.dropWhile isPyWs = l.reverse := by
    cases hrev : l.reverse with
    | nil => rfl
    | cons a t =>
      have hla : l.getLast? = some a := by
        rw [← List.head?_reverse, hrev]
        rfl
      rw [List.dropWhile_cons, if_neg (by simp [h2 a hla])]
  rw [hr, List.reverse_reverse]

/-- Stripping a joined canonical word list is the identity. -/
theorem pyStrip_joinWords (ws : List (List Char))
    (h : ∀ w ∈ ws, w ≠ [] ∧ ∀ c ∈ w, isPyWs c = false) :
    pyStrip (joinWords ws) = joinWords ws := by
  cases ws with
  | nil => rfl
  | cons w rest =>
    obtain ⟨hwne, hwc⟩ := h w (List.mem_cons_self _ _)
    refine pyStrip_eq_self _ ?_ ?_
    · intro c hc
      rw [joinWords_head? w rest hwne] at hc
      exact hwc c (List.mem_of_mem_head? hc)
    · intro c hc
      rcases joinWords_getLast?_mem (w :: rest) (fun u hu => (h u hu).1) c hc with ⟨u, hu, hcu⟩
      exact (h u hu).2 c hcu

/-- Characters survive the title-stripping fold only from the input. -/
theorem mem_of_mem_foldl_replaceAll (ts : List (List Char)) :
    ∀ (u : List Char) (c : Char),
      c ∈ ts.foldl (fun acc t => replaceAll t acc) u → c ∈ u := by
  induction ts with
  | nil => intro u c hc; simpa using hc
  | cons t rest ih =>
    intro u c hc
    rw [List.foldl_cons] at hc
    exact mem_of_mem_replaceAll t u c (ih (replaceAll t u) c hc)

/-- The canonical shape of normalized output: a join of non-empty words of
non-whitespace word characters fixed by uppercasing. -/
theorem normalizeChars_shape (s : List Char) :
    ∃ ws, normalizeChars s = joinWords ws ∧
      ∀ w ∈ ws, w ≠ [] ∧ ∀ c ∈ w,
        isPyWs c = false ∧ isWordChar c = true ∧ Char.toUpper c = c := by
  by_cases hs : s = []
  · refine ⟨[], ?_, by simp⟩
    rw [normalizeChars, if_pos hs]
    rfl
  · have hchars : ∀ c ∈ (TITLES.foldl (fun acc t => replaceAll t acc)
        (s.map Char.toUpper)).filter (fun c => isWordChar c || isPyWs c),
        isPyWs c = false → isWordChar c = true ∧ Char.toUpper c = c := by
      intro c hc hws
      rw [List.mem_filter] at hc
      constructor
      · rcases Bool.or_eq_true_iff.mp hc.2 with hw | hpw
        · exact hw
        · rw [hws] at hpw
          exact absurd hpw (by simp)
      · rcases List.mem_map.mp (mem_of_mem_foldl_replaceAll TITLES _ c hc.1) with ⟨c0, _, rfl⟩
        exact toUpper_toUpper c0
    have hsound := pyWordsAux_sound
      (fun c => isWordChar c = true ∧ Char.toUpper c = c)
      ((TITLES.foldl (fun acc t => replaceAll t acc) (s.map Char.toUpper)).filter
        (fun c => isWordChar c || isPyWs c)) [] (by simp) hchars
    refine ⟨pyWords ((TITLES.foldl (fun acc t => replaceAll t acc)
      (s.map Char.toUpper)).filter (fun c => isWordChar c || isPyWs c)), ?_, ?_⟩
    · simp only [normalizeChars, if_neg hs]
      exact pyStrip_joinWords _ (fun w hw =>
        ⟨(hsound w hw).1, fun c hc => ((hsound w hw).2 c hc).1⟩)
    · intro w hw
      exact ⟨(hsound w hw).1, fun c hc =>
        ⟨((hsound w hw).2 c hc).1, ((hsound w hw).2 c hc).2.1, ((hsound w hw).2 c hc).2.2⟩⟩

set_option maxRecDepth 10000 in
/-- C3 (counterexample): normalization is not idempotent — removing the `ON`
title token from `"OONN"` creates a fresh `ON`, so `normalize("OONN")` is
`"ON"` while normalizing a second time yields `""`. -/
theorem normalize_name_not_idempotent_cex :
    normalize_name (normalize_name "OONN") ≠ normalize_name "OONN" := by
  decide

/-- C3 (amended): normalization is idempotent on every input whose normalized
form contains no occurrence of a title token (token removal can otherwise
create new tokens, as in the counterexample). -/
theorem normalize_name_idempotent_title_free (x : String)
    (h : ∀ t ∈ TITLES, hasSub t (normalize_name x).data = false) :
    normalize_name (normalize_name x) = normalize_name x := by
  obtain ⟨ws, hsh, hws⟩ := normalizeChars_shape x.data
  have h' : ∀ t ∈ TITLES, hasSub t (joinWords ws) = false := by
    intro t ht
    have := h t ht
    rwa [show (normalize_name x).data = normalizeChars x.data from rfl, hsh] at this
  refine congrArg String.mk ?_
  show normalizeChars (normalizeChars x.data) = normalizeChars x.data
  rw [hsh]
  cases hws0 : ws with
  | nil => rfl
  | cons w rest =>
    subst hws0
    have hwne : w ≠ [] := (hws w (List.mem_cons_self _ _)).1
    have hne : joinWords (w :: rest) ≠ [] := joinWords_ne_nil w rest hwne
    simp only [normalizeChars, if_neg hne]
    have hmap : (joinWords (w :: rest)).map Char.toUpper = joinWords (w :: rest) := by
      refine map_id_of_mem _ _ ?_
      intro c hc
      rcases mem_joinWords _ c hc with rfl | ⟨u, hu, hcu⟩
      · rfl
      · exact ((hws u hu).2 c hcu).2.2
    rw [hmap, foldl_replaceAll_id TITLES _ h']
    have hfil : (joinWords (w :: rest)).filter (fun c => isWordChar c || isPyWs c) =
        joinWords (w :: rest) := by
      refine List.filter_eq_self.mpr ?_
      intro c hc
      rcases mem_joinWords _ c hc with rfl | ⟨u, hu, hcu⟩
      · simp [isPyWs]
      · simp [((hws u hu).2 c hcu).2.1]
    rw [hfil, pyWords_joinWords (w :: rest) (fun u hu =>
      ⟨(hws u hu).1, fun c hc => ((hws u hu).2 c hc).1⟩)]
    exact pyStrip_joinWords (w :: rest) (fun u hu =>
      ⟨(hws u hu).1, fun c hc => ((hws u hu).2 c hc).1⟩)

set_option maxRecDepth 10000 in
/-- Witness for the amended C3 at a concrete title-free name. -/
theorem normalize_name_idempotent_title_free_witness :
    (∀ t ∈ TITLES, hasSub t (normalize_name "Rossi Mario").data = false) ∧
    normalize_name (normalize_name "Rossi Mario") = normalize_name "Rossi Mario" :=
  ⟨by decide, normalize_name_idempotent_title_free "Rossi Mario" (by decide)⟩

/-! ## C1: idempotence of transcript ingestion

Re-processing a byte-identical file creates no additional session, topic or
speech rows: the first run establishes presence of every derived identifier,
presence is monotone (the processor only appends), and every step skips when
its identifier is present.  The lemmas below follow that structure. -/

/-- The session lookup of `process_file` as a boolean. -/
def hasSession (db : DB) (id : String) : Bool :=
  (db.sessions.find? (fun s => s.session_id = id)).isSome

/-- The session id derived from a file's stem. -/
def sessionOf (f : TFile) : String :=
  "session_" ++ f.legS ++ "_" ++ f.numS

/-- Presence of a speech id depends only on the speeches table. -/
theorem hasSpeech_congr {db1 db2 : DB} (h : db1.speeches = db2.speeches)
    (id : String) : hasSpeech db1 id = hasSpeech db2 id := by
  unfold hasSpeech
  rw [h]

/-- Presence of a topic id depends only on the topics table. -/
theorem hasTopic_congr {db1 db2 : DB} (h : db1.topics = db2.topics)
    (id : String) : hasTopic db1 id = hasTopic db2 id := by
  unfold hasTopic
  rw [h]

/-- Appending rows preserves speech presence. -/
theorem hasSpeech_append {db1 db2 : DB} (tl : List SpeechRow)
    (h : db2.speeches = db1.speeches ++ tl) (id : String)
    (hp : hasSpeech db1 id = true) : hasSpeech db2 id = true := by
  unfold hasSpeech at hp ⊢
  rw [h, List.any_append, hp, Bool.true_or]

/-- Appending rows preserves topic presence. -/
theorem hasTopic_append {db1 db2 : DB} (tl : List TopicRow)
    (h : db2.topics = db1.topics ++ tl) (id : String)
    (hp : hasTopic db1 id = true) : hasTopic db2 id = true := by
  unfold hasTopic at hp ⊢
  rw [h, List.any_append, hp, Bool.true_or]

/-- An intervention step never changes the sessions table. -/
theorem processIntervention_sessions (sid tid : String) (d : Nat) (ref : String)
    (st : PState) (idx : Nat) (iv : IvEntry) :
    (processIntervention sid tid d ref st idx iv).db.sessions = st.db.sessions := by
  cases iv with
  | nonDict => rfl
  | obj sp tx =>
    simp only [processIntervention]
    split
    · rfl
    · split
      · exact resolveSpeaker_sessions st (sp.getD "Unknown")
      · simpa using resolveSpeaker_sessions st (sp.getD "Unknown")

/-- An intervention step never changes the topics table. -/
theorem processIntervention_topics (sid tid : String) (d : Nat) (ref : String)
    (st : PState) (idx : Nat) (iv : IvEntry) :
    (processIntervention sid tid d ref st idx iv).db.topics = st.db.topics := by
  cases iv with
  | nonDict => rfl
  | obj sp tx =>
    simp only [processIntervention]
    split
    · rfl
    · split
      · exact resolveSpeaker_topics st (sp.getD "Unknown")
      · simpa using resolveSpeaker_topics st (sp.getD "Unknown")

/-- An intervention step only appends rows to the speeches table. -/
theorem processIntervention_speeches_extends (sid tid : String) (d : Nat)
    (ref : String) (st : PState) (idx : Nat) (iv : IvEntry) :
    ∃ tl, (processIntervention sid tid d ref st idx iv).db.speeches =
      st.db.speeches ++ tl := by
  cases iv with
  | nonDict => exact ⟨[], (List.append_nil _).symm⟩
  | obj sp tx =>
    simp only [processIntervention]
    split
    · exact ⟨[], (List.append_nil _).symm⟩
    · split
      · exact ⟨[], by rw [List.append_nil, resolveSpeaker_speeches]⟩
      · exact ⟨_, by rw [resolveSpeaker_speeches st (sp.getD "Unknown")]⟩

/-- After an intervention step on a non-blank object entry, the derived speech
id is present. -/
theorem processIntervention_establishes (sid tid : String) (d : Nat)
    (ref : String) (st : PState) (idx : Nat) (sp tx : Option String)
    (hnb : isBlank (tx.getD "") = false) :
    hasSpeech (processIntervention sid tid d ref st idx (IvEntry.obj sp tx)).db
      (generate_speech_id tid idx (tx.getD "")) = true := by
  simp only [processIntervention]
  rw [if_neg (by simp [hnb])]
  split
  · rename_i hcond
    exact hcond
  · unfold hasSpeech
    simp [List.any_append]

/-- An intervention step whose derived speech id is already present leaves the
speeches table unchanged. -/
theorem processIntervention_skip (sid tid : String) (d : Nat) (ref : String)
    (st : PState) (idx : Nat) (iv : IvEntry)
    (h : ∀ sp tx, iv = IvEntry.obj sp tx → isBlank (tx.getD "") = false →
      hasSpeech st.db (generate_speech_id tid idx (tx.getD "")) = true) :
    (processIntervention sid tid d ref st idx iv).db.speeches = st.db.speeches := by
  cases iv with
  | nonDict => rfl
  | obj sp tx =>
    simp only [processIntervention]
    by_cases hb : isBlank (tx.getD "") = true
    · rw [if_pos hb]
    · rw [if_neg hb]
      have hpres : hasSpeech (resolveSpeaker st (sp.getD "Unknown")).2.db
          (generate_speech_id tid idx (tx.getD "")) = true := by
        rw [hasSpeech_congr (resolveSpeaker_speeches st (sp.getD "Unknown"))]
        exact h sp tx rfl (by simpa using hb)
      rw [if_pos hpres, resolveSpeaker_speeches]

/-- The intervention fold never changes the sessions table. -/
theorem foldl_iv_sessions (sid tid : String) (d : Nat) (ref : String) :
    ∀ (l : List (Nat × IvEntry)) (st : PState),
      ((l.foldl (fun s q => processIntervention sid tid d ref s q.1 q.2) st).db.sessions)
        = st.db.sessions := by
  intro l
  induction l with
  | nil => intro st; rfl
  | cons p rest ih =>
    intro st
    rw [List.foldl_cons, ih, processIntervention_sessions]

/-- The intervention fold never changes the topics table. -/
theorem foldl_iv_topics (sid tid : String) (d : Nat) (ref : String) :
    ∀ (l : List (Nat × IvEntry)) (st : PState),
      ((l.foldl (fun s q => processIntervention sid tid d ref s q.1 q.2) st).db.topics)
        = st.db.topics := by
  intro l
  induction l with
  | nil => intro st; rfl
  | cons p rest ih =>
    intro st
    rw [List.foldl_cons, ih, processIntervention_topics]

/-- The intervention fold only appends to the speeches table. -/
theorem foldl_iv_speeches_extends (sid tid : String) (d : Nat) (ref : String) :
    ∀ (l : List (Nat × IvEntry)) (st : PState),
      ∃ tl, ((l.foldl (fun s q => processIntervention sid tid d ref s q.1 q.2) st).db.speeches)
        = st.db.speeches ++ tl := by
  intro l
  induction l with
  | nil => intro st; exact ⟨[], (List.append_nil _).symm⟩
  | cons p rest ih =>
    intro st
    rw [List.foldl_cons]
    obtain ⟨t1, h1⟩ := processIntervention_speeches_extends sid tid d ref st p.1 p.2
    obtain ⟨t2, h2⟩ := ih (processIntervention sid tid d ref st p.1 p.2)
    exact ⟨t1 ++ t2, by rw [h2, h1, List.append_assoc]⟩

/-- After the intervention fold, every non-blank object entry of the list has
its derived speech id present. -/
theorem foldl_iv_establishes (sid tid : String) (d : Nat) (ref : String) :
    ∀ (l : List (Nat × IvEntry)) (st : PState) (p : Nat × IvEntry), p ∈ l →
      ∀ sp tx, p.2 = IvEntry.obj sp tx → isBlank (tx.getD "") = false →
      hasSpeech ((l.foldl (fun s q => processIntervention sid tid d ref s q.1 q.2) st).db)
        (generate_speech_id tid p.1 (tx.getD "")) = true := by
  intro l
  induction l with
  | nil => intro st p hp; simp at hp
  | cons q rest ih =>
    intro st p hp sp tx hobj hnb
    rw [List.mem_cons] at hp
    rw [List.foldl_cons]
    rcases hp with rfl | hp
    · obtain ⟨tl, htl⟩ := foldl_iv_speeches_extends sid tid d ref rest
        (processIntervention sid tid d ref st p.1 p.2)
      refine @hasSpeech_append (processIntervention sid tid d ref st p.1 p.2).db _ tl htl _ ?_
      rw [hobj]
      exact processIntervention_establishes sid tid d ref st p.1 sp tx hnb
    · exact ih _ p hp sp tx hobj hnb

/-- The intervention fold leaves the speeches table unchanged when every entry
of the list already has its derived speech id present. -/
theorem foldl_iv_skip (sid tid : String) (d : Nat) (ref : String) :
    ∀ (l : List (Nat × IvEntry)) (st : PState),
      (∀ p ∈ l, ∀ sp tx, p.2 = IvEntry.obj sp tx → isBlank (tx.getD "") = false →
        hasSpeech st.db (generate_speech_id tid p.1 (tx.getD "")) = true) →
      ((l.foldl (fun s q => processIntervention sid tid d ref s q.1 q.2) st).db.speeches)
        = st.db.speeches := by
  intro l
  induction l with
  | nil => intro st _; rfl
  | cons q rest ih =>
    intro st h
    rw [List.foldl_cons]
    have hq : (processIntervention sid tid d ref st q.1 q.2).db.speeches = st.db.speeches :=
      processIntervention_skip sid tid d ref st q.1 q.2
        (fun sp tx hobj hnb => h q (List.mem_cons_self _ _) sp tx hobj hnb)
    rw [ih _ (fun p hp sp tx hobj hnb => by
      rw [hasSpeech_congr hq]
      exact h p (List.mem_cons_of_mem q hp) sp tx hobj hnb), hq]

/-- Postcondition of one topic block: once a block has been processed, its
topic id and the speech ids of all its non-blank object interventions are
present. -/
def BlockDone (sid : String) (b : String × List IvEntry) (st : PState) : Prop :=
  ¬(b.1 = "" ∨ b.2 = []) →
    hasTopic st.db (generate_topic_id sid b.1) = true ∧
    ∀ p ∈ b.2.enum, ∀ sp tx, p.2 = IvEntry.obj sp tx → isBlank (tx.getD "") = false →
      hasSpeech st.db (generate_speech_id (generate_topic_id sid b.1) p.1 (tx.getD "")) = true

/-- A topic block step never changes the sessions table. -/
theorem processTopicBlock_sessions (sid : String) (d : Nat) (ref : String)
    (st : PState) (b : String × List IvEntry) :
    (processTopicBlock sid d ref st b).db.sessions = st.db.sessions := by
  simp only [processTopicBlock]
  split
  · rfl
  · rw [foldl_iv_sessions]
    split <;> rfl

/-- A topic block step only appends to the topics table. -/
theorem processTopicBlock_topics_extends (sid : String) (d : Nat) (ref : String)
    (st : PState) (b : String × List IvEntry) :
    ∃ tl, (processTopicBlock sid d ref st b).db.topics = st.db.topics ++ tl := by
  simp only [processTopicBlock]
  split
  · exact ⟨[], (List.append_nil _).symm⟩
  · rw [foldl_iv_topics]
    split
    · exact ⟨[], (List.append_nil _).symm⟩
    · exact ⟨_, rfl⟩

/-- A topic block step only appends to the speeches table. -/
theorem processTopicBlock_speeches_extends (sid : String) (d : Nat) (ref : String)
    (st : PState) (b : String × List IvEntry) :
    ∃ tl, (processTopicBlock sid d ref st b).db.speeches = st.db.speeches ++ tl := by
  simp only [processTopicBlock]
  split
  · exact ⟨[], (List.append_nil _).symm⟩
  · split
    · exact foldl_iv_speeches_extends _ _ _ _ _ _
    · obtain ⟨tl, htl⟩ := foldl_iv_speeches_extends sid
        (generate_topic_id sid b.1) d ref b.2.enum
        { st with db.topics := st.db.topics ++
            [{ topic_id := generate_topic_id sid b.1, session_id := sid, title := b.1 }] }
      exact ⟨tl, htl⟩

/-- Processing a topic block establishes its postcondition. -/
theorem processTopicBlock_establishes (sid : String) (d : Nat) (ref : String)
    (st : PState) (b : String × List IvEntry) :
    BlockDone sid b (processTopicBlock sid d ref st b) := by
  intro hg
  simp only [processTopicBlock, if_neg hg]
  constructor
  · rw [hasTopic_congr (foldl_iv_topics _ _ _ _ _ _)]
    split
    · rename_i hpos
      exact hpos
    · unfold hasTopic
      simp [List.any_append]
  · intro p hp sp tx hobj hnb
    exact foldl_iv_establishes sid (generate_topic_id sid b.1) d ref b.2.enum _ p hp sp tx hobj hnb

/-- The block postcondition is monotone under appending rows. -/
theorem BlockDone_mono {sid : String} {b : String × List IvEntry} {st st' : PState}
    (hb : BlockDone sid b st)
    (ht : ∃ t1, st'.db.topics = st.db.topics ++ t1)
    (hs : ∃ t2, st'.db.speeches = st.db.speeches ++ t2) : BlockDone sid b st' := by
  intro hg
  obtain ⟨h1, h2⟩ := hb hg
  obtain ⟨t1, ht⟩ := ht
  obtain ⟨t2, hs⟩ := hs
  exact ⟨hasTopic_append t1 ht _ h1,
    fun p hp sp tx hobj hnb => hasSpeech_append t2 hs _ (h2 p hp sp tx hobj hnb)⟩

/-- A topic block step whose postcondition already holds changes neither the
topics nor the speeches table. -/
theorem processTopicBlock_skip (sid : String) (d : Nat) (ref : String)
    (st : PState) (b : String × List IvEntry) (hb : BlockDone sid b st) :
    (processTopicBlock sid d ref st b).db.topics = st.db.topics ∧
    (processTopicBlock sid d ref st b).db.speeches = st.db.speeches := by
  by_cases hg : b.1 = "" ∨ b.2 = []
  · simp only [processTopicBlock, if_pos hg]
    exact ⟨trivial, trivial⟩
  · obtain ⟨h1, h2⟩ := hb hg
    simp only [processTopicBlock, if_neg hg]
    rw [if_pos h1]
    exact ⟨foldl_iv_topics _ _ _ _ _ _, foldl_iv_skip _ _ _ _ _ _ h2⟩

/-- The topic-block fold never changes the sessions table. -/
theorem foldl_blk_sessions (sid : String) (d : Nat) (ref : String) :
    ∀ (blocks : List (String × List IvEntry)) (st : PState),
      ((blocks.foldl (processTopicBlock sid d ref) st).db.sessions) = st.db.sessions := by
  intro blocks
  induction blocks with
  | nil => intro st; rfl
  | cons b rest ih =>
    intro st
    rw [List.foldl_cons, ih, processTopicBlock_sessions]

/-- The topic-block fold only appends to the topics table. -/
theorem foldl_blk_topics_extends (sid : String) (d : Nat) (ref : String) :
    ∀ (blocks : List (String × List IvEntry)) (st : PState),
      ∃ tl, ((blocks.foldl (processTopicBlock sid d ref) st).db.topics) = st.db.topics ++ tl := by
  intro blocks
  induction blocks with
  | nil => intro st; exact ⟨[], (List.append_nil _).symm⟩
  | cons b rest ih =>
    intro st
    rw [List.foldl_cons]
    obtain ⟨t1, h1⟩ := processTopicBlock_topics_extends sid d ref st b
    obtain ⟨t2, h2⟩ := ih (processTopicBlock sid d ref st b)
    exact ⟨t1 ++ t2, by rw [h2, h1, List.append_assoc]⟩

/-- The topic-block fold only appends to the speeches table. -/
theorem foldl_blk_speeches_extends (sid : String) (d : Nat) (ref : String) :
    ∀ (blocks : List (String × List IvEntry)) (st : PState),
      ∃ tl, ((blocks.foldl (processTopicBlock sid d ref) st).db.speeches) = st.db.speeches ++ tl := by
  intro blocks
  induction blocks with
  | nil => intro st; exact ⟨[], (List.append_nil _).symm⟩
  | cons b rest ih =>
    intro st
    rw [List.foldl_cons]
    obtain ⟨t1, h1⟩ := processTopicBlock_speeches_extends sid d ref st b
    obtain ⟨t2, h2⟩ := ih (processTopicBlock sid d ref st b)
    exact ⟨t1 ++ t2, by rw [h2, h1, List.append_assoc]⟩

/-- After the topic-block fold, every block of the list satisfies its
postcondition. -/
theorem foldl_blk_establishes (sid : String) (d : Nat) (ref : String) :
    ∀ (blocks : List (String × List IvEntry)) (st : PState) (b : String × List IvEntry),
      b ∈ blocks → BlockDone sid b (blocks.foldl (processTopicBlock sid d ref) st) := by
  intro blocks
  induction blocks with
  | nil => intro st b hb; simp at hb
  | cons q rest ih =>
    intro st b hb
    rw [List.mem_cons] at hb
    rw [List.foldl_cons]
    rcases hb with rfl | hb
    · exact BlockDone_mono (processTopicBlock_establishes sid d ref st b)
        (foldl_blk_topics_extends sid d ref rest _)
        (foldl_blk_speeches_extends sid d ref rest _)
    · exact ih _ b hb

/-- The topic-block fold leaves topics and speeches unchanged when every block
of the list already satisfies its postcondition. -/
theorem foldl_blk_skip (sid : String) (d : Nat) (ref : String) :
    ∀ (blocks : List (String × List IvEntry)) (st : PState),
      (∀ b ∈ blocks, BlockDone sid b st) →
      ((blocks.foldl (processTopicBlock sid d ref) st).db.topics = st.db.topics ∧
       (blocks.foldl (processTopicBlock sid d ref) st).db.speeches = st.db.speeches) := by
  intro blocks
  induction blocks with
  | nil => intro st _; exact ⟨rfl, rfl⟩
  | cons q rest ih =>
    intro st h
    rw [List.foldl_cons]
    obtain ⟨ht, hs⟩ := processTopicBlock_skip sid d ref st q (h q (List.mem_cons_self _ _))
    have hrest := ih (processTopicBlock sid d ref st q) (fun b hb =>
      BlockDone_mono (h b (List.mem_cons_of_mem q hb))
        ⟨[], by rw [List.append_nil, ht]⟩ ⟨[], by rw [List.append_nil, hs]⟩)
    exact ⟨by rw [hrest.1, ht], by rw [hrest.2, hs]⟩

/-- A satisfied predicate is found in an appended singleton. -/
theorem find?_append_singleton_isSome {α : Type} (p : α → Bool) (l : List α)
    (x : α) (hx : p x = true) : ((l ++ [x]).find? p).isSome = true := by
  induction l with
  | nil => simp [List.find?, hx]
  | cons a t ih =>
    rw [List.cons_append, List.find?]
    split
    · rfl
    · exact ih

/-- After processing a file, its session id is present and every content
block satisfies its postcondition. -/
theorem process_file_establishes (today : Nat) (st : PState) (f : TFile) :
    hasSession (process_file today st f).db (sessionOf f) = true ∧
    ∀ b ∈ f.contents, BlockDone (sessionOf f) b (process_file today st f) := by
  constructor
  · show (((process_file today st f).db.sessions).find?
      (fun s => s.session_id = sessionOf f)).isSome = true
    unfold process_file
    rw [foldl_blk_sessions]
    rcases hf : st.db.sessions.find?
        (fun s => s.session_id = "session_" ++ f.legS ++ "_" ++ f.numS) with _ | s0
    · simp only [hf]
      refine find?_append_singleton_isSome _ _ _ ?_
      simp [sessionOf]
    · simp only [hf]
      show ((st.db.sessions).find? (fun s => s.session_id = sessionOf f)).isSome = true
      rw [show sessionOf f = "session_" ++ f.legS ++ "_" ++ f.numS from rfl, hf]
      rfl
  · intro b hb
    unfold process_file
    exact foldl_blk_establishes _ _ _ f.contents _ b hb

set_option maxHeartbeats 1000000 in
/-- C1: transcript ingestion is idempotent — re-processing a byte-identical
file after a successful run adds no session, topic or speech rows: every
derived identifier is found present and the corresponding insert is
skipped. -/
theorem process_file_idempotent (today : Nat) (st : PState) (f : TFile) :
    (process_file today (process_file today st f) f).db.sessions =
      (process_file today st f).db.sessions ∧
    (process_file today (process_file today st f) f).db.topics =
      (process_file today st f).db.topics ∧
    (process_file today (process_file today st f) f).db.speeches =
      (process_file today st f).db.speeches := by
  obtain ⟨hsess, hblocks⟩ := process_file_establishes today st f
  set st1 := process_file today st f with hst1
  have hfound : ∃ s0, st1.db.sessions.find?
      (fun s => s.session_id = "session_" ++ f.legS ++ "_" ++ f.numS) = some s0 := by
    have := hsess
    unfold hasSession at this
    rw [show sessionOf f = "session_" ++ f.legS ++ "_" ++ f.numS from rfl] at this
    exact Option.isSome_iff_exists.mp this
  obtain ⟨s0, hs0⟩ := hfound
  have hrun2 : process_file today st1 f =
      f.contents.foldl (processTopicBlock ("session_" ++ f.legS ++ "_" ++ f.numS)
        s0.date f.path) st1 := by
    simp only [process_file, hs0]
  rw [hrun2]
  have hskip := foldl_blk_skip ("session_" ++ f.legS ++ "_" ++ f.numS) s0.date f.path
    f.contents st1 (fun b hb => hblocks b hb)
  exact ⟨foldl_blk_sessions _ _ _ _ _, hskip.1, hskip.2⟩

end Politia
